import Mathlib

set_option autoImplicit false

/-!
Shallow embedding of the icli command dispatcher (`src/lib.rs`).

The external collaborators (clap's argument parser, the shlex shell
tokenizer, promkit's suggestion primitive and line editor) are abstracted
as function parameters, specified only at their interface boundary; the
repository's own code (registry, dispatcher, completion composition, the
line and batch runners and the interactive loop) is translated directly.

Panics of the dispatcher (`unwrap` on a missing subcommand, indexing the
registry with an unknown name) are modelled by an `Option` layer: `none`
means the Rust code would panic.
-/

namespace Icli

/-- Rust `enum TaskAction { Continue, Break, Exit }`. -/
inductive TaskAction where
  | Continue
  | Break
  | Exit
  deriving DecidableEq

/-- Abstraction of clap's `ArgMatches`: the only capability the dispatcher
uses is `matches.subcommand()`, which yields the selected subcommand's name
and the nested matches for it (or nothing). -/
inductive Matches where
  | mk : Option (String × Matches) → Matches

/-- The `subcommand()` accessor of `Matches`. -/
def Matches.sub : Matches → Option (String × Matches)
  | .mk s => s

/-- Abstraction of a clap `Command`: only its name is observed by the
registry (`t.command().get_name()`). -/
structure Command where
  name : String

/-- Rust `trait Task`: a grammar, an execution function and a completion
function. `action` is total: a concrete task's own divergence is outside
the model (the dispatcher's possible panics are modelled in `Cli.action`). -/
structure Task where
  command : Command
  action : Matches → TaskAction
  suggests : List String → Option String

/-- Rust `fn complete<L>(l, text)`: the promkit `Suggest` primitive is
abstracted as `search`; `search(candidates, text).unwrap_or(text)`. -/
def complete (search : List String → String → Option String)
    (l : List String) (text : String) : String :=
  (search l text).getD text

/-- `struct Cli { cmd: Command, cmds: HashMap<String, Box<dyn Task>> }`.
The hash map is modelled as an association list with unique keys; iteration
order of `HashMap` is unspecified, here it is the list order. -/
structure Cli where
  name : String
  cmds : List (String × Task)

/-- `HashMap::get` on the registry. -/
def lookupTask (m : List (String × Task)) (k : String) : Option Task :=
  (m.find? (fun p => p.1 == k)).map (·.2)

/-- `HashMap::keys` on the registry. -/
def keysOf (m : List (String × Task)) : List String :=
  m.map (·.1)

/-- `HashMap::insert`: replace the entry with the given key if present,
otherwise add a new entry. -/
def insertTask : List (String × Task) → String → Task → List (String × Task)
  | [], k, v => [(k, v)]
  | p :: rest, k, v => if p.1 = k then (k, v) :: rest else p :: insertTask rest k v

/-- `Cli::new(name)`: empty registry (the clap configuration of the root
command is behaviour of the external parser, captured by `GrammarOK`). -/
def Cli.new (name : String) : Cli :=
  ⟨name, []⟩

/-- `Cli::add_task(t)`: `self.cmds.insert(t.command().get_name().to_string(), Box::new(t))`. -/
def Cli.add_task (c : Cli) (t : Task) : Cli :=
  { c with cmds := insertTask c.cmds t.command.name t }

/-- `impl Task for Cli :: suggests`. Source:
`args.iter().next().map(|a| self.cmds.get(*a).map(|c| c.suggests(&args[1..])).flatten()
   .map_or_else(|| complete(self.cmds.keys()...chain(["help"]), *a),
                |r| Graphemes::from([*a, &r.to_string()].join(" "))))`. -/
def Cli.suggests (search : List String → String → Option String)
    (c : Cli) (args : List String) : Option String :=
  match args with
  | [] => none
  | a :: rest =>
    match (lookupTask c.cmds a).bind (fun t => t.suggests rest) with
    | some r => some (a ++ " " ++ r)
    | none => some (complete search (keysOf c.cmds ++ ["help"]) a)

/-- `impl Task for Cli :: action`. Source:
`let (name, matches) = matches.subcommand().unwrap(); self.cmds[name].action(&matches)`.
`none` models a panic of `unwrap` or of the registry index. -/
def Cli.action (c : Cli) (m : Matches) : Option TaskAction :=
  match m.sub with
  | none => none
  | some (name, sub) => (lookupTask c.cmds name).map (fun t => t.action sub)

/-- `Cli::parse(line)`. `tok` abstracts `shlex::split`; `gp` abstracts
`self.command().try_get_matches_from(args)` (clap against the merged
grammar of this `Cli`), already composed with `e.to_string()`. -/
def Cli.parse (c : Cli) (tok : String → Option (List String))
    (gp : List String → Except String Matches) (line : String) :
    Except String (Option Matches) :=
  match tok line with
  | none => .error "error: Invalid quoting"
  | some args =>
    if args.isEmpty then .ok none
    else
      match gp args with
      | .ok m => .ok (some m)
      | .error e => .error e

/-- Modelled from the spec: the contract of the external grammar parser
(clap) when invoked on the merged grammar of `c`. "the merged grammar
guarantees exactly one subcommand was selected" and "grammar validation
(performed by the external parser) guarantees that only registered names
can reach `action()`": every successful parse exposes a selected
subcommand whose name is a key of the registry. -/
def GrammarOK (c : Cli) (gp : List String → Except String Matches) : Prop :=
  ∀ args m, gp args = .ok m →
    ∃ name sub, m.sub = some (name, sub) ∧ (lookupTask c.cmds name).isSome = true

/-- `Cli::run(line)`: parse; blank line gives `Continue`; otherwise
dispatch to `action`. The outer `Option` propagates a dispatcher panic. -/
def Cli.run (c : Cli) (tok : String → Option (List String))
    (gp : List String → Except String Matches) (line : String) :
    Option (Except String TaskAction) :=
  match c.parse tok gp line with
  | .error e => some (.error e)
  | .ok none => some (.ok .Continue)
  | .ok (some m) => (c.action m).map .ok

/-- Rust `char::is_whitespace`, as used by `str::trim`. -/
def wsB (c : Char) : Bool := c.isWhitespace

/-- Leading-whitespace removal (`str::trim_start`) on the character list. -/
def trimStartC (l : List Char) : List Char := l.dropWhile wsB

/-- Trailing-whitespace removal (`str::trim_end`) on the character list. -/
def trimEndC (l : List Char) : List Char := (l.reverse.dropWhile wsB).reverse

/-- `str::trim` on the character list (removal at both ends; the two
single-sided trims commute, so the composition order is immaterial). -/
def trimC (l : List Char) : List Char := trimStartC (trimEndC l)

/-- Rust `str::split(c)` on the character list: the list of segments
between occurrences of `c` (`"".split(c)` is `[""]`, separators at the
ends produce empty segments). -/
def splitC (c : Char) : List Char → List (List Char)
  | [] => [[]]
  | x :: xs =>
    match splitC c xs with
    | [] => [[]]
    | h :: t => if x = c then [] :: h :: t else (x :: h) :: t

/-- `str::trim` lifted to `String`. -/
def rsTrim (s : String) : String := ⟨trimC s.data⟩

/-- `str::split(c)` lifted to `String`. -/
def rsSplit (c : Char) (s : String) : List String := (splitC c s.data).map (fun l => ⟨l⟩)

/-- The `for line in ... { self.run(line)?; }` loop of `Cli::run_batch`,
over an already-computed fragment list: run each fragment in order,
stop at the first error, discard successful fragments' actions. -/
def runBatchGo (r : String → Option (Except String TaskAction)) :
    List String → Option (Except String Unit)
  | [] => some (.ok ())
  | l :: rest =>
    match r l with
    | none => none
    | some (.error e) => some (.error e)
    | some (.ok _) => runBatchGo r rest

/-- `Cli::run_batch(cmd)`. Source iterator:
`cmd.split('\n').map(|s| s.trim()).flat_map(|s| s.split(';').map(|s| s.trim()))`. -/
def Cli.run_batch (c : Cli) (tok : String → Option (List String))
    (gp : List String → Except String Matches) (cmd : String) :
    Option (Except String Unit) :=
  runBatchGo (c.run tok gp)
    (((rsSplit '\n' cmd).map rsTrim).flatMap (fun s => (rsSplit ';' s).map rsTrim))

/-- The fragment list of a batch as the spec words it: split the text
first on line breaks, then each segment on semicolons, trimming
surrounding whitespace from every resulting fragment. -/
def specFragments (text : String) : List String :=
  (rsSplit '\n' text).flatMap (fun s => (rsSplit ';' s).map rsTrim)

/-- The `loop` of `Cli::run_interactive_with`, with the external line
editor abstracted as the list of lines it yields, in order. Result: the
errors printed (in order) and the terminal action (`none` when the line
supply is exhausted with the loop still running). The outer `Option`
propagates a panic of `run`. Source:
`let action = self.run(&line).unwrap_or_else(|e| { println!(e); Continue });
 if action != Continue { break Ok(action) }`. -/
def runLoop (r : String → Option (Except String TaskAction)) :
    List String → Option (List String × Option TaskAction)
  | [] => some ([], none)
  | l :: rest =>
    match r l with
    | none => none
    | some (.error e) => (runLoop r rest).map (fun p => (e :: p.1, p.2))
    | some (.ok .Continue) => runLoop r rest
    | some (.ok .Break) => some ([], some .Break)
    | some (.ok .Exit) => some ([], some .Exit)

/-- `Cli::run_interactive_with`: the session loop wired to `Cli::run`
(the prompt construction and key bindings belong to the external editor). -/
def Cli.run_interactive_with (c : Cli) (tok : String → Option (List String))
    (gp : List String → Except String Matches) (lines : List String) :
    Option (List String × Option TaskAction) :=
  runLoop (c.run tok gp) lines

/-- Apply `f` to the last element of a list (identity on `[]`); used to
describe how end-of-string trimming acts on a split. -/
def modLast (f : List Char → List Char) : List (List Char) → List (List Char)
  | [] => []
  | a :: t =>
    match t with
    | [] => [f a]
    | _ :: _ => a :: modLast f t

/-! Concrete fixtures used to evaluate the development on closed inputs. -/

/-- A task named `deploy` whose completion answers with `--base` followed by
the tokens it was given. -/
def deployTask : Task :=
  ⟨⟨"deploy"⟩, fun _ => .Continue, fun a => some ("--base " ++ String.intercalate " " a)⟩

/-- A task named `deploy` whose completion never yields a suggestion. -/
def quietTask : Task :=
  ⟨⟨"deploy"⟩, fun _ => .Continue, fun _ => none⟩

/-- A task named `status` that asks the loop to stop. -/
def statusTask : Task :=
  ⟨⟨"status"⟩, fun _ => .Break, fun _ => none⟩

/-- A task named `quit` that exits the loop. -/
def quitTask : Task :=
  ⟨⟨"quit"⟩, fun _ => .Exit, fun _ => none⟩

/-- A suggestion primitive that never finds a better match. -/
def searchEmpty : List String → String → Option String := fun _ _ => none

/-- A suggestion primitive: first candidate the query is a prefix of. -/
def searchFirst : List String → String → Option String :=
  fun l q => l.find? (fun s => q.data.isPrefixOf s.data)

/-- A registry holding only `quietTask`. -/
def quietCli : Cli := (Cli.new "icli").add_task quietTask

/-- A registry holding `deployTask` and `statusTask`. -/
def demoCli : Cli := ((Cli.new "icli").add_task deployTask).add_task statusTask

/-- A tokenizer that always reports invalid quoting. -/
def tokFail : String → Option (List String) := fun _ => none

/-- A tokenizer that always yields zero tokens. -/
def tokBlank : String → Option (List String) := fun _ => some []

/-- A tokenizer that splits on spaces, dropping empty words (enough for
the fixtures). -/
def tokWords : String → Option (List String) :=
  fun s => some (((splitC ' ' s.data).map (fun l => (⟨l⟩ : String))).filter
    (fun w => !w.data.isEmpty))

/-- A grammar parser playing clap for `demoCli`: it accepts the registered
names `deploy` and `status` as the selected subcommand (with empty nested
matches) and rejects anything else. -/
def gpDemo : List String → Except String Matches :=
  fun args =>
    match args with
    | [] => .error "error: missing subcommand"
    | a :: _ =>
      if a = "deploy" ∨ a = "status" then .ok (Matches.mk (some (a, Matches.mk none)))
      else .error "error: unrecognized subcommand"

/-! Auxiliary lemmas about trimming and splitting character lists. -/

theorem dropWhile_dropWhile (p : Char → Bool) (l : List Char) :
    (l.dropWhile p).dropWhile p = l.dropWhile p := by
  induction l with
  | nil => rfl
  | cons a t ih =>
    by_cases h : p a
    · simp [List.dropWhile_cons, h, ih]
    · simp [List.dropWhile_cons, h]

theorem trimEndC_idem (l : List Char) : trimEndC (trimEndC l) = trimEndC l := by
  simp [trimEndC, dropWhile_dropWhile]

theorem trimC_trimEndC (l : List Char) : trimC (trimEndC l) = trimC l := by
  simp [trimC, trimEndC_idem]

theorem trimEndC_cons (x : Char) (xs : List Char) :
    trimEndC (x :: xs) =
      if trimEndC xs = [] then (if wsB x then [] else [x]) else x :: trimEndC xs := by
  have hnil : trimEndC xs = [] ↔ List.dropWhile wsB xs.reverse = [] := by
    simp [trimEndC]
  by_cases h : List.dropWhile wsB xs.reverse = []
  · rw [if_pos (hnil.mpr h)]
    by_cases hx : wsB x
    · simp [trimEndC, List.dropWhile_append, h, hx]
    · simp [trimEndC, List.dropWhile_append, h, hx]
  · rw [if_neg (fun hh => h (hnil.mp hh))]
    have : (List.dropWhile wsB xs.reverse).isEmpty = false := by
      cases hd : List.dropWhile wsB xs.reverse with
      | nil => exact absurd hd h
      | cons a t => rfl
    simp [trimEndC, List.dropWhile_append, this]

theorem trimEndC_eq_nil (l : List Char) :
    trimEndC l = [] ↔ ∀ ch ∈ l, wsB ch := by
  simp [trimEndC, List.dropWhile_eq_nil_iff]

theorem trimC_cons_ws (x : Char) (h : List Char) (hx : wsB x = true) :
    trimC (x :: h) = trimC h := by
  rw [trimC, trimEndC_cons]
  by_cases hh : trimEndC h = []
  · simp [hh, hx, trimC, trimStartC]
  · simp [hh, trimC, trimStartC, List.dropWhile_cons, hx]

theorem splitC_ne_nil (c : Char) (l : List Char) : splitC c l ≠ [] := by
  cases l with
  | nil => simp [splitC]
  | cons x xs =>
    simp only [splitC]
    rcases h : splitC c xs with _ | ⟨h₀, t₀⟩
    · simp
    · by_cases hx : x = c <;> simp [hx]

theorem splitC_cons_self (c : Char) (xs : List Char) (h₀ : List Char) (t₀ : List (List Char))
    (h : splitC c xs = h₀ :: t₀) : splitC c (c :: xs) = [] :: h₀ :: t₀ := by
  simp [splitC, h]

theorem splitC_cons_ne (c x : Char) (xs : List Char) (h₀ : List Char) (t₀ : List (List Char))
    (hx : ¬ x = c) (h : splitC c xs = h₀ :: t₀) : splitC c (x :: xs) = (x :: h₀) :: t₀ := by
  simp [splitC, h, hx]

theorem splitC_of_not_mem (c : Char) (m : List Char) (hm : c ∉ m) : splitC c m = [m] := by
  induction m with
  | nil => rfl
  | cons x xs ih =>
    have hx : ¬ x = c := fun e => hm (e ▸ List.mem_cons_self x xs)
    have hxs : c ∉ xs := fun q => hm (List.mem_cons_of_mem x q)
    simp [splitC, ih hxs, hx]

theorem eq_of_splitC_single (c : Char) (m h : List Char) (hs : splitC c m = [h]) : h = m := by
  induction m generalizing h with
  | nil =>
    injection hs with h1 h2
    exact h1.symm
  | cons x xs ih =>
    rcases hsp : splitC c xs with _ | ⟨h₀, t₀⟩
    · exact absurd hsp (splitC_ne_nil c xs)
    · simp only [splitC, hsp] at hs
      by_cases hx : x = c
      · rw [if_pos hx] at hs
        simp at hs
      · rw [if_neg hx] at hs
        injection hs with hh ht
        subst ht
        have hx0 : h₀ = xs := ih h₀ hsp
        rw [← hh, hx0]

theorem splitC_trimEndC (c : Char) (hc : wsB c = false) (m : List Char) :
    splitC c (trimEndC m) = modLast trimEndC (splitC c m) := by
  induction m with
  | nil => rfl
  | cons x xs ih =>
    rcases hsp : splitC c xs with _ | ⟨h₀, t₀⟩
    · exact absurd hsp (splitC_ne_nil c xs)
    · by_cases hE : trimEndC xs = []
      · have hall : ∀ ch ∈ xs, wsB ch := (trimEndC_eq_nil xs).mp hE
        have hnm : c ∉ xs := fun hmem => by
          have hw := hall c hmem
          rw [hc] at hw
          simp at hw
        have hxs1 : splitC c xs = [xs] := splitC_of_not_mem c xs hnm
        by_cases hxc : x = c
        · have hx : wsB x = false := by rw [hxc]; exact hc
          have hTE : trimEndC (x :: xs) = [x] := by
            rw [trimEndC_cons, if_pos hE, hx]
            simp
          rw [hTE, hxc]
          rw [splitC_cons_self c xs xs [] hxs1]
          have hcc : splitC c [c] = [[], []] := by simp [splitC]
          rw [hcc]
          show ([[], []] : List (List Char)) = [[], trimEndC xs]
          rw [hE]
        · by_cases hx : wsB x = true
          · have hTE : trimEndC (x :: xs) = [] := by
              rw [trimEndC_cons, if_pos hE, if_pos hx]
            rw [hTE]
            rw [splitC_cons_ne c x xs xs [] hxc hxs1]
            show ([[]] : List (List Char)) = [trimEndC (x :: xs)]
            rw [hTE]
          · have hTE : trimEndC (x :: xs) = [x] := by
              rw [trimEndC_cons, if_pos hE, if_neg hx]
            rw [hTE]
            rw [splitC_cons_ne c x xs xs [] hxc hxs1]
            show splitC c [x] = [trimEndC (x :: xs)]
            rw [hTE]
            simp [splitC, hxc]
      · have hTE : trimEndC (x :: xs) = x :: trimEndC xs := by
          rw [trimEndC_cons, if_neg hE]
        rw [hTE]
        cases t₀ with
        | nil =>
          have hxseq : h₀ = xs := eq_of_splitC_single c xs h₀ hsp
          have hsp1 : splitC c xs = [xs] := by rw [hsp, hxseq]
          have hone : splitC c (trimEndC xs) = [trimEndC xs] := by
            rw [ih, hsp1]
            rfl
          by_cases hxc : x = c
          · rw [hxc]
            rw [splitC_cons_self c (trimEndC xs) (trimEndC xs) [] hone]
            rw [splitC_cons_self c xs xs [] hsp1]
            rfl
          · rw [splitC_cons_ne c x (trimEndC xs) (trimEndC xs) [] hxc hone]
            rw [splitC_cons_ne c x xs xs [] hxc hsp1]
            show [x :: trimEndC xs] = [trimEndC (x :: xs)]
            rw [hTE]
        | cons u t₁ =>
          have hmod : splitC c (trimEndC xs) = h₀ :: modLast trimEndC (u :: t₁) := by
            rw [ih, hsp]
            rfl
          by_cases hxc : x = c
          · rw [hxc]
            rw [splitC_cons_self c (trimEndC xs) h₀ (modLast trimEndC (u :: t₁)) hmod]
            rw [splitC_cons_self c xs h₀ (u :: t₁) hsp]
            rfl
          · rw [splitC_cons_ne c x (trimEndC xs) h₀ (modLast trimEndC (u :: t₁)) hxc hmod]
            rw [splitC_cons_ne c x xs h₀ (u :: t₁) hxc hsp]
            rfl

theorem map_trimC_modLast (L : List (List Char)) :
    (modLast trimEndC L).map trimC = L.map trimC := by
  induction L with
  | nil => rfl
  | cons a t ih =>
    cases t with
    | nil => simp [modLast, trimC_trimEndC]
    | cons b t' =>
      show trimC a :: (modLast trimEndC (b :: t')).map trimC = trimC a :: (b :: t').map trimC
      rw [ih]

theorem map_trimC_splitC_trimStartC (c : Char) (hc : wsB c = false) (m : List Char) :
    (splitC c (trimStartC m)).map trimC = (splitC c m).map trimC := by
  induction m with
  | nil => rfl
  | cons x xs ih =>
    by_cases hx : wsB x
    · have hxc : ¬ x = c := fun e => by
        rw [e, hc] at hx
        exact absurd hx (by simp)
      have h1 : trimStartC (x :: xs) = trimStartC xs := by
        simp [trimStartC, List.dropWhile_cons, hx]
      rcases hsp : splitC c xs with _ | ⟨h₀, t₀⟩
      · exact absurd hsp (splitC_ne_nil c xs)
      · rw [h1, ih, hsp]
        rw [splitC_cons_ne c x xs h₀ t₀ hxc hsp]
        show trimC h₀ :: t₀.map trimC = trimC (x :: h₀) :: t₀.map trimC
        rw [trimC_cons_ws x h₀ hx]
    · have h1 : trimStartC (x :: xs) = x :: xs := by
        simp [trimStartC, List.dropWhile_cons, hx]
      rw [h1]

theorem map_trimC_splitC_trimC (c : Char) (hc : wsB c = false) (m : List Char) :
    (splitC c (trimC m)).map trimC = (splitC c m).map trimC := by
  calc (splitC c (trimStartC (trimEndC m))).map trimC
      = (splitC c (trimEndC m)).map trimC := map_trimC_splitC_trimStartC c hc (trimEndC m)
    _ = (modLast trimEndC (splitC c m)).map trimC := by rw [splitC_trimEndC c hc m]
    _ = (splitC c m).map trimC := map_trimC_modLast _

theorem map_rsTrim_map_mk (L : List (List Char)) :
    (L.map (fun l => (⟨l⟩ : String))).map rsTrim
      = (L.map trimC).map (fun l => (⟨l⟩ : String)) := by
  induction L with
  | nil => rfl
  | cons a t ih =>
    show rsTrim ⟨a⟩ :: (t.map (fun l => (⟨l⟩ : String))).map rsTrim
        = (⟨trimC a⟩ : String) :: (t.map trimC).map (fun l => (⟨l⟩ : String))
    rw [ih]
    rfl

theorem map_rsTrim_rsSplit_rsTrim (s : String) :
    (rsSplit ';' (rsTrim s)).map rsTrim = (rsSplit ';' s).map rsTrim := by
  have hc : wsB ';' = false := by decide
  have key := map_trimC_splitC_trimC ';' hc s.data
  show ((splitC ';' (trimC s.data)).map (fun l => (⟨l⟩ : String))).map rsTrim
      = ((splitC ';' s.data).map (fun l => (⟨l⟩ : String))).map rsTrim
  rw [map_rsTrim_map_mk, map_rsTrim_map_mk, key]

theorem batch_fragments_eq (text : String) :
    ((rsSplit '\n' text).map rsTrim).flatMap (fun s => (rsSplit ';' s).map rsTrim)
      = specFragments text := by
  show ((rsSplit '\n' text).map rsTrim).flatMap (fun s => (rsSplit ';' s).map rsTrim)
      = (rsSplit '\n' text).flatMap (fun s => (rsSplit ';' s).map rsTrim)
  induction rsSplit '\n' text with
  | nil => rfl
  | cons a t ih =>
    simp only [List.map_cons, List.flatMap_cons, ih]
    rw [map_rsTrim_rsSplit_rsTrim a]

/-! Auxiliary lemmas about the registry and the runners. -/

theorem lookupTask_insertTask_self (m : List (String × Task)) (k : String) (v : Task) :
    lookupTask (insertTask m k v) k = some v := by
  induction m with
  | nil =>
    show lookupTask [(k, v)] k = some v
    unfold lookupTask
    rw [List.find?_cons_of_pos _ (by simp)]
    rfl
  | cons p rest ih =>
    by_cases h : p.1 = k
    · simp only [insertTask, if_pos h]
      unfold lookupTask
      rw [List.find?_cons_of_pos _ (by simp)]
      rfl
    · simp only [insertTask, if_neg h]
      unfold lookupTask at ih ⊢
      rw [List.find?_cons_of_neg _ (by simp [h])]
      exact ih

theorem lookupTask_insertTask_ne (m : List (String × Task)) (k k' : String) (v : Task)
    (hk : k' ≠ k) : lookupTask (insertTask m k v) k' = lookupTask m k' := by
  have hkk : ¬ k = k' := fun e => hk e.symm
  induction m with
  | nil =>
    show lookupTask [(k, v)] k' = lookupTask [] k'
    unfold lookupTask
    rw [List.find?_cons_of_neg _ (by simp [hkk])]
  | cons p rest ih =>
    by_cases h : p.1 = k
    · simp only [insertTask, if_pos h]
      unfold lookupTask
      rw [List.find?_cons_of_neg _ (by simp [hkk])]
      rw [List.find?_cons_of_neg _ (by simp [h ▸ hkk])]
    · simp only [insertTask, if_neg h]
      unfold lookupTask at ih ⊢
      by_cases hb : p.1 = k'
      · rw [List.find?_cons_of_pos _ (by simp [hb]), List.find?_cons_of_pos _ (by simp [hb])]
      · rw [List.find?_cons_of_neg _ (by simp [hb]), List.find?_cons_of_neg _ (by simp [hb])]
        exact ih

theorem keysOf_insertTask (m : List (String × Task)) (k : String) (v : Task) :
    keysOf (insertTask m k v) = if k ∈ keysOf m then keysOf m else keysOf m ++ [k] := by
  induction m with
  | nil => simp [insertTask, keysOf]
  | cons p rest ih =>
    by_cases h : p.1 = k
    · have hmem : k ∈ keysOf (p :: rest) := by
        rw [← h]
        exact List.mem_cons_self p.1 _
      have he : insertTask (p :: rest) k v = (k, v) :: rest := by
        simp [insertTask, h]
      rw [he, if_pos hmem]
      show k :: keysOf rest = keysOf (p :: rest)
      show k :: keysOf rest = p.1 :: keysOf rest
      rw [h]
    · have he : insertTask (p :: rest) k v = p :: insertTask rest k v := by
        simp [insertTask, h]
      rw [he]
      show p.1 :: keysOf (insertTask rest k v)
          = if k ∈ keysOf (p :: rest) then keysOf (p :: rest) else keysOf (p :: rest) ++ [k]
      rw [ih]
      by_cases hk : k ∈ keysOf rest
      · have h1 : k ∈ keysOf (p :: rest) := by
          show k ∈ p.1 :: keysOf rest
          exact List.mem_cons_of_mem _ hk
        rw [if_pos hk, if_pos h1]
        rfl
      · have h1 : k ∉ keysOf (p :: rest) := by
          show ¬ k ∈ p.1 :: keysOf rest
          intro hc
          rcases List.mem_cons.mp hc with he2 | hm2
          · exact h he2.symm
          · exact hk hm2
        rw [if_neg hk, if_neg h1]
        rfl

theorem nodup_keysOf_insertTask (m : List (String × Task)) (k : String) (v : Task)
    (hn : (keysOf m).Nodup) : (keysOf (insertTask m k v)).Nodup := by
  rw [keysOf_insertTask]
  by_cases h : k ∈ keysOf m
  · rw [if_pos h]
    exact hn
  · rw [if_neg h]
    simp [List.nodup_append, hn, h]

theorem runBatchGo_ok_iff (r : String → Option (Except String TaskAction)) (L : List String) :
    runBatchGo r L = some (.ok ()) ↔ ∀ f ∈ L, ∃ a, r f = some (.ok a) := by
  induction L with
  | nil => simp [runBatchGo]
  | cons l rest ih =>
    rcases h : r l with _ | res
    · simp [runBatchGo, h]
    · rcases res with e | a
      · simp [runBatchGo, h]
      · simp [runBatchGo, h, ih]

theorem runBatchGo_first_error (r : String → Option (Except String TaskAction))
    (pre : List String) (bad : String) (post : List String) (e : String)
    (hpre : ∀ f ∈ pre, ∃ a, r f = some (.ok a)) (hbad : r bad = some (.error e)) :
    runBatchGo r (pre ++ bad :: post) = some (.error e) := by
  induction pre with
  | nil =>
    simp [runBatchGo, hbad]
  | cons l rest ih =>
    obtain ⟨a, ha⟩ := hpre l (List.mem_cons_self l rest)
    have : runBatchGo r (rest ++ bad :: post) = some (.error e) :=
      ih (fun f hf => hpre f (List.mem_cons_of_mem l hf))
    simp [runBatchGo, ha, this]

/-- The demo grammar parser satisfies the spec-modelled clap contract for
the demo registry. -/
theorem gpDemo_grammarOK : GrammarOK demoCli gpDemo := by
  intro args m h
  cases args with
  | nil => simp [gpDemo] at h
  | cons a rest =>
    simp only [gpDemo] at h
    by_cases ha : a = "deploy" ∨ a = "status"
    · rw [if_pos ha] at h
      injection h with h1
      refine ⟨a, Matches.mk none, ?_, ?_⟩
      · rw [← h1]
        rfl
      · rcases ha with h2 | h2 <;> rw [h2] <;> decide
    · rw [if_neg ha] at h
      exact absurd h (by simp)

theorem parse_tok_none (c : Cli) (tok : String → Option (List String))
    (gp : List String → Except String Matches) (line : String) (h : tok line = none) :
    c.parse tok gp line = .error "error: Invalid quoting" := by
  unfold Cli.parse
  rw [h]

theorem parse_tok_empty (c : Cli) (tok : String → Option (List String))
    (gp : List String → Except String Matches) (line : String) (h : tok line = some []) :
    c.parse tok gp line = .ok none := by
  unfold Cli.parse
  rw [h]
  rfl

theorem parse_ok_some (c : Cli) (tok : String → Option (List String))
    (gp : List String → Except String Matches) (line : String) (m : Matches)
    (hp : c.parse tok gp line = .ok (some m)) :
    ∃ args, tok line = some args ∧ gp args = .ok m := by
  rcases h1 : tok line with _ | args
  · rw [parse_tok_none c tok gp line h1] at hp
    exact absurd hp (by simp)
  · unfold Cli.parse at hp
    rw [h1] at hp
    dsimp only at hp
    by_cases he : args.isEmpty
    · rw [if_pos he] at hp
      simp at hp
    · rw [if_neg he] at hp
      cases h2 : gp args with
      | error e =>
        rw [h2] at hp
        simp at hp
      | ok m2 =>
        rw [h2] at hp
        simp only [Except.ok.injEq, Option.some.injEq] at hp
        exact ⟨args, rfl, by rw [h2, hp]⟩

theorem runLoop_cons (r : String → Option (Except String TaskAction)) (l : String)
    (rest : List String) :
    runLoop r (l :: rest) =
      match r l with
      | none => none
      | some (.error e) => (runLoop r rest).map (fun p => (e :: p.1, p.2))
      | some (.ok .Continue) => runLoop r rest
      | some (.ok .Break) => some ([], some .Break)
      | some (.ok .Exit) => some ([], some .Exit) := rfl

/-! The claims. -/

/-- C1 counterexample: with a registered task whose own completion yields
nothing, the dispatcher does not yield nothing — the source's
`map_or_else` treats the child's `None` exactly like an unmatched first
token and falls back to ranking, so `suggests(["deploy", "--ba"])`
returns `Some("deploy")`, not `None` as the claim requires. -/
theorem c1_counterexample :
    quietTask.suggests ["--ba"] = none ∧
    Cli.suggests searchEmpty quietCli ["deploy", "--ba"] = some "deploy" ∧
    Cli.suggests searchEmpty quietCli ["deploy", "--ba"] ≠ none := by
  decide

/-- C1 (amended): when the first token matches a registered subcommand and
that child's suggest on the remaining tokens yields no suggestion, the
Dispatcher falls back to ranking the first token against the registered
names unioned with `"help"` (it never yields no suggestion on non-empty
input). -/
theorem c1_child_none_falls_back (search : List String → String → Option String)
    (c : Cli) (a : String) (rest : List String) (t : Task)
    (hl : lookupTask c.cmds a = some t) (hs : t.suggests rest = none) :
    Cli.suggests search c (a :: rest) = some (complete search (keysOf c.cmds ++ ["help"]) a) := by
  simp [Cli.suggests, hl, hs]

/-- C1 witness: the amended statement at the concrete counterexample
input. -/
theorem c1_witness :
    Cli.suggests searchEmpty quietCli ["deploy", "--ba"]
      = some (complete searchEmpty (keysOf quietCli.cmds ++ ["help"]) "deploy") :=
  c1_child_none_falls_back searchEmpty quietCli "deploy" ["--ba"] quietTask rfl rfl

/-- C2 counterexample: with registry `{deploy, status}` and unmatched
first token `"dep"`, `suggest(["dep", "x"])` returns `Some("deploy")`:
the already-typed later token `"x"` does not occur anywhere in the
returned suggestion (the fallback branch returns only the completion of
the first token), contradicting the claim's "later already-typed tokens
are never dropped". -/
theorem c2_counterexample :
    lookupTask demoCli.cmds "dep" = none ∧
    Cli.suggests searchFirst demoCli ["dep", "x"] = some "deploy" ∧
    ¬ ('x' ∈ "deploy".data) := by
  refine ⟨rfl, by decide, by decide⟩

/-- C2 (amended): for a non-empty token list whose first token `a` matches
no registered name, the Dispatcher's suggest returns exactly the result of
ranking `a` against all registered names unioned with `"help"`; the tokens
after `a` are discarded (the result is the same for every tail). -/
theorem c2_unmatched_ranks_first_token (search : List String → String → Option String)
    (c : Cli) (a : String) (rest : List String)
    (hl : lookupTask c.cmds a = none) :
    Cli.suggests search c (a :: rest) = some (complete search (keysOf c.cmds ++ ["help"]) a) := by
  simp [Cli.suggests, hl]

/-- C2 witness: the amended statement at the concrete counterexample
input (and the spec's own example `suggest(["dep"])` shape). -/
theorem c2_witness :
    Cli.suggests searchFirst demoCli ["dep", "x"]
      = some (complete searchFirst (keysOf demoCli.cmds ++ ["help"]) "dep") :=
  c2_unmatched_ranks_first_token searchFirst demoCli "dep" ["x"] rfl

/-- C3: under the spec-modelled contract of the external grammar parser
(`GrammarOK`), every matches value produced by a successful `parse` has a
selected subcommand, its name is a key of the registry, and the
Dispatcher's `action` does not panic but returns exactly the child task's
action on the nested matches. -/
theorem c3_action_after_parse (c : Cli) (tok : String → Option (List String))
    (gp : List String → Except String Matches) (line : String) (m : Matches)
    (hg : GrammarOK c gp) (hp : c.parse tok gp line = .ok (some m)) :
    ∃ name sub t, m.sub = some (name, sub) ∧ lookupTask c.cmds name = some t ∧
      c.action m = some (t.action sub) := by
  obtain ⟨args, h1, h2⟩ := parse_ok_some c tok gp line m hp
  obtain ⟨name, sub, hsub, hsome⟩ := hg args m h2
  obtain ⟨t, ht⟩ := Option.isSome_iff_exists.mp hsome
  refine ⟨name, sub, t, hsub, ht, ?_⟩
  simp [Cli.action, hsub, ht]

/-- C3 witness: a concrete successful parse against the demo registry,
with the dispatcher's action equal to the selected child's action. -/
theorem c3_witness :
    ∃ name sub t,
      (Matches.mk (some ("deploy", Matches.mk none))).sub = some (name, sub) ∧
      lookupTask demoCli.cmds name = some t ∧
      demoCli.action (Matches.mk (some ("deploy", Matches.mk none))) = some (t.action sub) :=
  c3_action_after_parse demoCli tokWords gpDemo "deploy x"
    (Matches.mk (some ("deploy", Matches.mk none))) gpDemo_grammarOK rfl

/-- C4: `run_batch` equals the fail-fast sequential runner over exactly
the fragments the spec describes (split on line breaks, then each segment
on semicolons, every fragment trimmed); moreover the runner returns the
first error, aborting the fragments after it. -/
theorem c4_run_batch_fragments (c : Cli) (tok : String → Option (List String))
    (gp : List String → Except String Matches) (text : String) :
    c.run_batch tok gp text = runBatchGo (c.run tok gp) (specFragments text) ∧
    (∀ pre bad post e,
      (∀ f ∈ pre, ∃ a, c.run tok gp f = some (.ok a)) →
      c.run tok gp bad = some (.error e) →
      runBatchGo (c.run tok gp) (pre ++ bad :: post) = some (.error e)) := by
  constructor
  · unfold Cli.run_batch
    rw [batch_fragments_eq]
  · intro pre bad post e hpre hbad
    exact runBatchGo_first_error (c.run tok gp) pre bad post e hpre hbad

/-- C4 witness: the equation at a concrete batch, and a concrete first
error aborting the remaining fragments. -/
theorem c4_witness :
    demoCli.run_batch tokWords gpDemo "deploy x; bad\nstatus"
      = runBatchGo (demoCli.run tokWords gpDemo) (specFragments "deploy x; bad\nstatus") ∧
    runBatchGo (demoCli.run tokWords gpDemo) (["deploy x"] ++ "bad" :: ["status"])
      = some (.error "error: unrecognized subcommand") := by
  have h := c4_run_batch_fragments demoCli tokWords gpDemo "deploy x; bad\nstatus"
  refine ⟨h.1, h.2 ["deploy x"] "bad" ["status"] "error: unrecognized subcommand" ?_ rfl⟩
  intro f hf
  rw [List.mem_singleton] at hf
  subst hf
  exact ⟨.Continue, rfl⟩

/-- C5: a batch returns `Ok(())` exactly when every fragment's run
succeeds, whatever `TaskAction` each fragment returns — the actions are
discarded, so a `Break` or `Exit` fragment does not stop the batch, and
success of the whole batch requires every fragment (none skipped) to have
run successfully. -/
theorem c5_batch_ok_iff (c : Cli) (tok : String → Option (List String))
    (gp : List String → Except String Matches) (text : String) :
    c.run_batch tok gp text = some (.ok ()) ↔
      ∀ f ∈ specFragments text, ∃ a, c.run tok gp f = some (.ok a) := by
  unfold Cli.run_batch
  rw [batch_fragments_eq]
  exact runBatchGo_ok_iff _ _

/-- C5 witness: a batch whose first fragment returns `Break` still runs
the second fragment and returns `Ok(())`. -/
theorem c5_witness :
    demoCli.run_batch tokWords gpDemo "status; deploy x" = some (.ok ()) := by
  refine (c5_batch_ok_iff demoCli tokWords gpDemo "status; deploy x").mpr ?_
  intro f hf
  have he : specFragments "status; deploy x" = ["status", "deploy x"] := rfl
  rw [he] at hf
  have hfs : f = "status" ∨ f = "deploy x" := by simpa using hf
  rcases hfs with rfl | rfl
  · exact ⟨.Break, rfl⟩
  · exact ⟨.Continue, rfl⟩

/-- C6: suggest on the empty token list yields nothing; and when the first
token equals a registered subcommand name, the child's own suggest is
invoked on exactly the remaining tokens, and a child suggestion `r` is
returned as the first token, a space, then `r`. -/
theorem c6_suggest_delegation (search : List String → String → Option String) (c : Cli) :
    Cli.suggests search c [] = none ∧
    (∀ (a : String) (rest : List String) (t : Task) (r : String),
      lookupTask c.cmds a = some t → t.suggests rest = some r →
      Cli.suggests search c (a :: rest) = some (a ++ " " ++ r)) := by
  refine ⟨rfl, ?_⟩
  intro a rest t r hl hs
  simp [Cli.suggests, hl, hs]

/-- C6 witness: empty input yields nothing, and `["deploy", "--ba"]`
delegates to `deployTask.suggests ["--ba"]`. -/
theorem c6_witness :
    Cli.suggests searchFirst demoCli [] = none ∧
    Cli.suggests searchFirst demoCli ["deploy", "--ba"] = some "deploy --base --ba" := by
  have h := c6_suggest_delegation searchFirst demoCli
  exact ⟨h.1, h.2 "deploy" ["--ba"] deployTask "--base --ba" rfl rfl⟩

/-- C7: when shell tokenization fails, `parse` and `run` return exactly
the error string `"error: Invalid quoting"`, for every grammar parser and
registry (so no task's action can be consulted). -/
theorem c7_invalid_quoting (c : Cli) (tok : String → Option (List String))
    (gp : List String → Except String Matches) (line : String) (h : tok line = none) :
    c.parse tok gp line = .error "error: Invalid quoting" ∧
    c.run tok gp line = some (.error "error: Invalid quoting") := by
  have hp := parse_tok_none c tok gp line h
  refine ⟨hp, ?_⟩
  unfold Cli.run
  rw [hp]

/-- C7 witness: the claim at a concrete line with an unterminated quote
under a tokenizer that reports invalid quoting. -/
theorem c7_witness :
    quietCli.parse tokFail gpDemo "echo \"unterminated" = .error "error: Invalid quoting" ∧
    quietCli.run tokFail gpDemo "echo \"unterminated" = some (.error "error: Invalid quoting") :=
  c7_invalid_quoting quietCli tokFail gpDemo "echo \"unterminated" rfl

/-- C8: when the line tokenizes to zero tokens, `parse` yields no matches
and `run` returns `Ok(Continue)`, for every grammar parser and registry
(so no task's action can be consulted). -/
theorem c8_blank_line (c : Cli) (tok : String → Option (List String))
    (gp : List String → Except String Matches) (line : String) (h : tok line = some []) :
    c.parse tok gp line = .ok none ∧ c.run tok gp line = some (.ok .Continue) := by
  have hp := parse_tok_empty c tok gp line h
  refine ⟨hp, ?_⟩
  unfold Cli.run
  rw [hp]

/-- C8 witness: the claim at the concrete lines `""` and `"   "`. -/
theorem c8_witness :
    (quietCli.parse tokBlank gpDemo "" = .ok none ∧
      quietCli.run tokBlank gpDemo "" = some (.ok .Continue)) ∧
    (quietCli.parse tokBlank gpDemo "   " = .ok none ∧
      quietCli.run tokBlank gpDemo "   " = some (.ok .Continue)) :=
  ⟨c8_blank_line quietCli tokBlank gpDemo "" rfl,
   c8_blank_line quietCli tokBlank gpDemo "   " rfl⟩

/-- C9: in the interactive loop, an iteration whose run errors prints the
error and continues (the result is the result on the remaining lines with
the error prepended to the printed output); an iteration yielding
`Continue` loops again; and an iteration yielding `Break` or `Exit`
terminates immediately with that action, whatever lines would follow
(nothing further is read). -/
theorem c9_session_loop (c : Cli) (tok : String → Option (List String))
    (gp : List String → Except String Matches) (l : String) (rest : List String)
    (e : String) (a : TaskAction) :
    (c.run tok gp l = some (.error e) →
      c.run_interactive_with tok gp (l :: rest)
        = (c.run_interactive_with tok gp rest).map (fun p => (e :: p.1, p.2))) ∧
    (c.run tok gp l = some (.ok .Continue) →
      c.run_interactive_with tok gp (l :: rest) = c.run_interactive_with tok gp rest) ∧
    (a ≠ .Continue → c.run tok gp l = some (.ok a) →
      c.run_interactive_with tok gp (l :: rest) = some ([], some a)) := by
  refine ⟨?_, ?_, ?_⟩
  · intro h
    show runLoop (c.run tok gp) (l :: rest)
        = (runLoop (c.run tok gp) rest).map (fun p => (e :: p.1, p.2))
    rw [runLoop_cons, h]
  · intro h
    show runLoop (c.run tok gp) (l :: rest) = runLoop (c.run tok gp) rest
    rw [runLoop_cons, h]
  · intro hne h
    show runLoop (c.run tok gp) (l :: rest) = some ([], some a)
    rw [runLoop_cons, h]
    cases a with
    | Continue => exact absurd rfl hne
    | Break => rfl
    | Exit => rfl

/-- C9 witness: an erroring line is printed and the loop continues; a
`Continue` line loops; a `Break` line stops at once — the lines queued
after it are never consumed. -/
theorem c9_witness :
    demoCli.run_interactive_with tokWords gpDemo ["bad", "status"]
      = some (["error: unrecognized subcommand"], some .Break) ∧
    demoCli.run_interactive_with tokWords gpDemo ["deploy x", "status"]
      = some ([], some .Break) ∧
    demoCli.run_interactive_with tokWords gpDemo ["status", "anything", "else"]
      = some ([], some .Break) := by
  refine ⟨?_, ?_, ?_⟩
  · rw [(c9_session_loop demoCli tokWords gpDemo "bad" ["status"]
      "error: unrecognized subcommand" .Continue).1 rfl]
    rfl
  · rw [(c9_session_loop demoCli tokWords gpDemo "deploy x" ["status"] "" .Continue).2.1 rfl]
    rfl
  · exact (c9_session_loop demoCli tokWords gpDemo "status" ["anything", "else"] "" .Break).2.2
      (by decide) rfl

/-- C10: `add_task` maps the task's command name to the task; every other
key is untouched; and key uniqueness of the registry is preserved (a
colliding registration silently replaces, never errs — `add_task` is
total). -/
theorem c10_add_task_registry (c : Cli) (t : Task) :
    lookupTask (c.add_task t).cmds t.command.name = some t ∧
    (∀ k, k ≠ t.command.name → lookupTask (c.add_task t).cmds k = lookupTask c.cmds k) ∧
    ((keysOf c.cmds).Nodup → (keysOf (c.add_task t).cmds).Nodup) := by
  refine ⟨?_, ?_, ?_⟩
  · exact lookupTask_insertTask_self c.cmds t.command.name t
  · intro k hk
    exact lookupTask_insertTask_ne c.cmds t.command.name k t hk
  · intro hn
    exact nodup_keysOf_insertTask c.cmds t.command.name t hn

/-- C10 witness: re-registering the name `deploy` replaces the old task,
leaves `status` untouched, and keeps the key set duplicate-free. -/
theorem c10_witness :
    lookupTask ((demoCli.add_task quietTask).cmds) "deploy" = some quietTask ∧
    lookupTask ((demoCli.add_task quietTask).cmds) "status" = lookupTask demoCli.cmds "status" ∧
    (keysOf ((demoCli.add_task quietTask).cmds)).Nodup := by
  have h := c10_add_task_registry demoCli quietTask
  exact ⟨h.1, h.2.1 "status" (by decide), h.2.2 (by decide)⟩

end Icli
